import Mathlib

/-!
Shallow embedding of the alert/news core of `src/bot.py` (a Telegram
price-alert bot).  Python strings are modelled as `String` / `List Char`,
Python floats as `ℚ`, the sqlite table as a list of rows, HTTP fetches as
`Option`-valued inputs (`none` = the fetch raised), and the periodic
`alert_checker` job as a pure state transformer emitting notifications.
-/

namespace CryptoBot

/-! ### Character/string helpers (Python `strip`, `lower`, `in`) -/

/-- Python `str.strip()` on a character list: drop whitespace at both ends. -/
def trimL (cs : List Char) : List Char :=
  ((cs.dropWhile Char.isWhitespace).reverse.dropWhile Char.isWhitespace).reverse

/-- `s.strip()` for a `String`, producing a character list. -/
def strTrim (s : String) : List Char := trimL s.toList

/-- Python `str.lower()` (ASCII case folding). -/
def lowerL (cs : List Char) : List Char := cs.map Char.toLower

/-- `needle` is a leading segment of `hay`. -/
def leadSeg : List Char → List Char → Bool
  | [], _ => true
  | _ :: _, [] => false
  | a :: as, b :: bs => a = b && leadSeg as bs

/-- Python `needle in hay` substring containment. -/
def containsSub (needle : List Char) : List Char → Bool
  | [] => leadSeg needle []
  | c :: rest => leadSeg needle (c :: rest) || containsSub needle rest

/-! ### News aggregation (`fetch_rss_items`, `fetch_crypto_news`) -/

/-- The fixed keyword list `CRYPTO_KEYWORDS` from the source. -/
def CRYPTO_KEYWORDS : List String :=
  ["crypto", "cryptocurrency", "bitcoin", "btc", "ethereum", "eth",
   "solana", "sol", "xrp", "ripple", "binance", "bnb",
   "doge", "dogecoin", "stablecoin", "usdt", "tether", "usdc",
   "blockchain", "web3", "defi", "etf", "mining"]

/-- `contains_crypto_keyword(title)`: case-insensitive substring match
against the keyword list. -/
def contains_crypto_keyword (title : String) : Bool :=
  CRYPTO_KEYWORDS.any (fun k => containsSub k.toList (lowerL title.toList))

/-- A raw feed entry as `feedparser` exposes it: `title`, `link`
(with `getattr` defaults already applied) and the two optional parsed
timestamps, in seconds. -/
structure RawEntry where
  title : String
  link : String
  published_parsed : Option Nat
  updated_parsed : Option Nat
deriving DecidableEq

/-- One item of the merged news list (`title`, `link`, `published_ts`,
`source`). -/
structure NewsItem where
  title : String
  link : String
  published_ts : Nat
  source : String
deriving DecidableEq

/-- `fetch_rss_items(url, limit)` after the HTTP/XML stage: take the first
`limit` entries and project `title`, `link` and a timestamp
(`published_parsed or updated_parsed`, else `0`). -/
def fetch_rss_items (entries : List RawEntry) (limit : Nat) : List NewsItem :=
  (entries.take limit).map (fun e =>
    { title := e.title
      link := e.link
      published_ts :=
        match e.published_parsed with
        | some t => t
        | none =>
          match e.updated_parsed with
          | some t => t
          | none => 0
      source := "" })

/-- The deduplication key: `(link or "").strip() or (title or "").strip().lower()`. -/
def newsKey (x : NewsItem) : List Char :=
  if strTrim x.link ≠ [] then strTrim x.link else lowerL (strTrim x.title)

/-- Insert `x` into an already descending-by-timestamp list, before the
first strictly older element (so a stable descending sort results). -/
def insertDesc (x : NewsItem) : List NewsItem → List NewsItem
  | [] => [x]
  | y :: ys =>
    if y.published_ts ≤ x.published_ts then x :: y :: ys else y :: insertDesc x ys

/-- `sorted(merged, key=published_ts, reverse=True)`: stable descending
sort by publication timestamp. -/
def sortDesc : List NewsItem → List NewsItem
  | [] => []
  | x :: xs => insertDesc x (sortDesc xs)

/-- The dedup walk: skip an item whose key is empty or already seen,
otherwise keep it and record its key. -/
def dedupNews : List NewsItem → List (List Char) → List NewsItem
  | [], _ => []
  | x :: rest, seen =>
    if newsKey x = [] ∨ newsKey x ∈ seen then dedupNews rest seen
    else x :: dedupNews rest (newsKey x :: seen)

/-- Tagging plus keyword filtering of the two feeds, then concatenation:
the `merged` list of `fetch_crypto_news`. -/
def merge_feeds (limit_each : Nat) (aEntries bEntries : List RawEntry) : List NewsItem :=
  let investing := (fetch_rss_items aEntries limit_each).map
    (fun x => { x with source := "Investing.com" })
  let cnbc := ((fetch_rss_items bEntries limit_each).filter
    (fun x => contains_crypto_keyword x.title)).map (fun x => { x with source := "CNBC" })
  investing ++ cnbc

/-- The `try primary / except alternate` shape of the CNBC fetch: the
primary result when it succeeded, otherwise the alternate's result
(whose failure propagates). -/
def feedB_entries (fbPrimary fbAlternate : Option (List RawEntry)) :
    Option (List RawEntry) :=
  match fbPrimary with
  | some b => some b
  | none => fbAlternate

/-- `fetch_crypto_news(limit_each, final_limit)`: each `Option` input is
the outcome of the corresponding HTTP fetch (`none` = raised).  Feed A
failing, or both feed-B endpoints failing, makes the whole call fail. -/
def fetch_crypto_news (limit_each final_limit : Nat)
    (feedA fbPrimary fbAlternate : Option (List RawEntry)) : Option (List NewsItem) :=
  match feedA with
  | none => none
  | some aEntries =>
    match feedB_entries fbPrimary fbAlternate with
    | none => none
    | some bEntries =>
      some ((dedupNews (sortDesc (merge_feeds limit_each aEntries bEntries)) []).take final_limit)

/-! ### Alert store (the sqlite `alerts` table) -/

/-- One row of the `alerts` table. -/
structure Alert where
  id : Nat
  chat_id : Int
  symbol : String
  coin_id : String
  direction : String
  target_usd : ℚ
  is_active : Bool
  created_at : Nat
deriving DecidableEq

/-- The database: the rows plus the next AUTOINCREMENT id. -/
structure DB where
  alerts : List Alert
  next_id : Nat
deriving DecidableEq

/-- `db_init()`: empty table, ids start at 1. -/
def dbInit : DB := { alerts := [], next_id := 1 }

/-- `db_add_alert`: insert a fresh active row. -/
def db_add_alert (db : DB) (chat_id : Int) (symbol coin_id direction : String)
    (target_usd : ℚ) (now : Nat) : DB :=
  { alerts := db.alerts ++
      [{ id := db.next_id, chat_id := chat_id, symbol := symbol, coin_id := coin_id
         direction := direction, target_usd := target_usd, is_active := true
         created_at := now }]
    next_id := db.next_id + 1 }

/-- `db_deactivate_alert`: `UPDATE alerts SET is_active = 0 WHERE id = ?`. -/
def db_deactivate_alert (db : DB) (aid : Nat) : DB :=
  { db with alerts := db.alerts.map fun a => if a.id = aid then { a with is_active := false } else a }

/-- `db_get_active_alerts`: the rows with `is_active = 1`. -/
def db_get_active_alerts (db : DB) : List Alert :=
  db.alerts.filter (fun a => a.is_active)

/-! ### The alert checker job -/

/-- The trigger test of `alert_checker`: `above` and price at or over the
target, or `below` and price at or under it. -/
def trig (usd : ℚ) (a : Alert) : Bool :=
  (a.direction == "above" && decide (a.target_usd ≤ usd)) ||
  (a.direction == "below" && decide (usd ≤ a.target_usd))

/-- The message sent on a trigger (the fields interpolated into it). -/
structure Notification where
  aid : Nat
  chat_id : Int
  symbol : String
  usd : ℚ
  idr : ℚ
  target_usd : ℚ
  direction : String
deriving DecidableEq

/-- Build the trigger notification for row `a` at the fetched prices. -/
def mkNotif (a : Alert) (usd idr : ℚ) : Notification :=
  { aid := a.id, chat_id := a.chat_id, symbol := a.symbol, usd := usd, idr := idr
    target_usd := a.target_usd, direction := a.direction }

/-- Keys of a Python dict in insertion order: first occurrences, tracked
by an accumulator of already-seen keys. -/
def dedupFirstAux (seen : List String) : List String → List String
  | [] => []
  | c :: rest =>
    if c ∈ seen then dedupFirstAux seen rest
    else c :: dedupFirstAux (c :: seen) rest

/-- The iteration order of `by_coin` in `alert_checker`: each coin id
once, at its first occurrence. -/
def dedupFirst (l : List String) : List String := dedupFirstAux [] l

/-- Body of the inner loop of `alert_checker`: on a trigger, deactivate
the row and append the notification. -/
def processAlert (usd idr : ℚ) (acc : DB × List Notification) (a : Alert) :
    DB × List Notification :=
  if trig usd a then (db_deactivate_alert acc.1 a.id, acc.2 ++ [mkNotif a usd idr])
  else acc

/-- Body of the per-coin loop: a failed price fetch (`none`) skips the
whole group; otherwise every alert of the group is evaluated against the
snapshot rows. -/
def processCoin (prices : String → Option (ℚ × ℚ)) (active : List Alert)
    (acc : DB × List Notification) (coin : String) : DB × List Notification :=
  match prices coin with
  | none => acc
  | some (usd, idr) =>
    ((active.filter (fun a => a.coin_id = coin)).foldl (processAlert usd idr) acc)

/-- `alert_checker(context)`: one tick.  `prices coin` is the outcome of
`fetch_prices_usd_idr(coin)` during this tick (`none` = raised). -/
def alert_checker (prices : String → Option (ℚ × ℚ)) (db : DB) :
    DB × List Notification :=
  let active := db_get_active_alerts db
  (dedupFirst (active.map (fun a => a.coin_id))).foldl (processCoin prices active) (db, [])

/-! ### User-facing operations and traces -/

/-- The decimal-number check of `on_text`: `re.fullmatch(r"\d+(\.\d+)?", raw)`. -/
def decMatch (cs : List Char) : Bool :=
  let ds := cs.takeWhile Char.isDigit
  let rest := cs.dropWhile Char.isDigit
  !ds.isEmpty &&
    (match rest with
     | [] => true
     | '.' :: frac => !frac.isEmpty && frac.all Char.isDigit
     | _ => false)

/-- Digit run to a natural number. -/
def digitsToNat (cs : List Char) : Nat :=
  cs.foldl (fun n c => n * 10 + (c.toNat - '0'.toNat)) 0

/-- `float(raw)` on a string already known to match the decimal pattern. -/
def parseDec (cs : List Char) : ℚ :=
  let whole := cs.takeWhile Char.isDigit
  let rest := cs.dropWhile Char.isDigit
  match rest with
  | '.' :: frac => (digitsToNat whole : ℚ) + (digitsToNat frac : ℚ) / (10 ^ frac.length)
  | _ => (digitsToNat whole : ℚ)

/-- `update.message.text.strip().replace(",", "")`. -/
def pyStripCommas (text : String) : List Char :=
  (trimL text.toList).filter (fun c => c ≠ ',')

/-- The validation step of `on_text` in `ALERT_WAIT_TARGET` mode: `some`
parsed target when the pattern matches, else `none` (rejection). -/
def validate_target (text : String) : Option ℚ :=
  let raw := pyStripCommas text
  if decMatch raw then some (parseDec raw) else none

/-- `on_text` in `ALERT_WAIT_TARGET` mode, restricted to its effect on
the store: a valid target is inserted, an invalid one leaves the store
untouched. -/
def on_text_target (db : DB) (chat_id : Int) (symbol coin_id direction : String)
    (text : String) (now : Nat) : DB :=
  match validate_target text with
  | some t => db_add_alert db chat_id symbol coin_id direction t now
  | none => db

/-- The operations that touch the alert store: creation via the
validated path, explicit deactivation (`ALERT_OFF_` button), and one
checker tick with a given price environment. -/
inductive Op where
  | add (chat_id : Int) (symbol coin_id direction : String) (target_usd : ℚ) (now : Nat)
  | deact (aid : Nat)
  | tick (prices : String → Option (ℚ × ℚ))

/-- Effect of one operation: the new store and the notifications sent. -/
def runOp (db : DB) : Op → DB × List Notification
  | .add c s ci d t now => (db_add_alert db c s ci d t now, [])
  | .deact aid => (db_deactivate_alert db aid, [])
  | .tick prices => alert_checker prices db

/-- Effect of a sequence of operations, notifications accumulated in
order. -/
def run (db : DB) : List Op → DB × List Notification
  | [] => (db, [])
  | op :: rest =>
    let step := runOp db op
    let rec' := run step.1 rest
    (rec'.1, step.2 ++ rec'.2)

/-! ### Sorting and deduplication lemmas -/

theorem mem_insertDesc (x y : NewsItem) :
    ∀ l : List NewsItem, y ∈ insertDesc x l ↔ y = x ∨ y ∈ l
  | [] => by simp [insertDesc]
  | z :: zs => by
    by_cases h : z.published_ts ≤ x.published_ts
    · simp [insertDesc, h]
    · simp only [insertDesc, if_neg h, List.mem_cons, mem_insertDesc x y zs]
      tauto

theorem insertDesc_perm (x : NewsItem) :
    ∀ l : List NewsItem, (insertDesc x l).Perm (x :: l)
  | [] => List.Perm.refl _
  | z :: zs => by
    by_cases h : z.published_ts ≤ x.published_ts
    · simp [insertDesc, h]
    · simp only [insertDesc, if_neg h]
      exact ((insertDesc_perm x zs).cons z).trans (List.Perm.swap x z zs)

theorem sortDesc_perm : ∀ l : List NewsItem, (sortDesc l).Perm l
  | [] => List.Perm.refl _
  | x :: xs => (insertDesc_perm x (sortDesc xs)).trans ((sortDesc_perm xs).cons x)

theorem insertDesc_pairwise (x : NewsItem) :
    ∀ l : List NewsItem,
      l.Pairwise (fun a b => b.published_ts ≤ a.published_ts) →
      (insertDesc x l).Pairwise (fun a b => b.published_ts ≤ a.published_ts)
  | [], _ => by simp [insertDesc]
  | z :: zs, h => by
    rcases List.pairwise_cons.mp h with ⟨h1, h2⟩
    by_cases hc : z.published_ts ≤ x.published_ts
    · simp only [insertDesc, if_pos hc]
      refine List.pairwise_cons.mpr ⟨?_, h⟩
      intro b hb
      rcases List.mem_cons.mp hb with rfl | hb
      · exact hc
      · exact (h1 b hb).trans hc
    · simp only [insertDesc, if_neg hc]
      refine List.pairwise_cons.mpr ⟨?_, insertDesc_pairwise x zs h2⟩
      intro b hb
      rcases (mem_insertDesc x b zs).mp hb with rfl | hb
      · exact Nat.le_of_not_le hc
      · exact h1 b hb

theorem sortDesc_pairwise :
    ∀ l : List NewsItem,
      (sortDesc l).Pairwise (fun a b => b.published_ts ≤ a.published_ts)
  | [] => List.Pairwise.nil
  | x :: xs => insertDesc_pairwise x (sortDesc xs) (sortDesc_pairwise xs)

theorem dedupNews_sublist :
    ∀ (l : List NewsItem) (seen : List (List Char)),
      List.Sublist (dedupNews l seen) l
  | [], _ => List.Sublist.refl _
  | x :: rest, seen => by
    by_cases h : newsKey x = [] ∨ newsKey x ∈ seen
    · simpa only [dedupNews, if_pos h] using (dedupNews_sublist rest seen).cons x
    · simpa only [dedupNews, if_neg h] using (dedupNews_sublist rest (newsKey x :: seen)).cons₂ x

theorem dedupNews_key_fresh :
    ∀ (l : List NewsItem) (seen : List (List Char)) (y : NewsItem),
      y ∈ dedupNews l seen → newsKey y ≠ [] ∧ newsKey y ∉ seen
  | [], _, y, hy => by simp [dedupNews] at hy
  | x :: rest, seen, y, hy => by
    by_cases h : newsKey x = [] ∨ newsKey x ∈ seen
    · rw [dedupNews, if_pos h] at hy
      exact dedupNews_key_fresh rest seen y hy
    · rw [dedupNews, if_neg h] at hy
      push_neg at h
      rcases List.mem_cons.mp hy with rfl | hy
      · exact h
      · rcases dedupNews_key_fresh rest (newsKey x :: seen) y hy with ⟨h1, h2⟩
        exact ⟨h1, fun hs => h2 (List.mem_cons_of_mem _ hs)⟩

theorem dedupNews_count_one :
    ∀ (l : List NewsItem) (seen : List (List Char)) (k : List Char),
      k ≠ [] → k ∉ seen → (∃ x ∈ l, newsKey x = k) →
      ((dedupNews l seen).filter (fun y => newsKey y = k)).length = 1
  | [], _, _, _, _, hocc => by simp at hocc
  | x :: rest, seen, k, hk, hseen, hocc => by
    by_cases h : newsKey x = [] ∨ newsKey x ∈ seen
    · rw [dedupNews, if_pos h]
      rcases hocc with ⟨z, hz, hkz⟩
      rcases List.mem_cons.mp hz with rfl | hz
      · rcases h with h | h
        · exact absurd (hkz ▸ h) hk
        · exact absurd (hkz ▸ h) hseen
      · exact dedupNews_count_one rest seen k hk hseen ⟨z, hz, hkz⟩
    · rw [dedupNews, if_neg h]
      by_cases hx : newsKey x = k
      · rw [List.filter_cons_of_pos (by simpa using hx)]
        have hnil : (dedupNews rest (newsKey x :: seen)).filter (fun y => newsKey y = k) = [] := by
          refine List.filter_eq_nil_iff.mpr ?_
          intro y hy
          have := (dedupNews_key_fresh rest (newsKey x :: seen) y hy).2
          simp only [decide_eq_true_eq]
          intro hyk
          exact this (by rw [hyk, ← hx]; exact List.mem_cons_self _ _)
        rw [hnil]
        rfl
      · rw [List.filter_cons_of_neg (by simpa using hx)]
        rcases hocc with ⟨z, hz, hkz⟩
        rcases List.mem_cons.mp hz with rfl | hz
        · exact absurd hkz hx
        · refine dedupNews_count_one rest (newsKey x :: seen) k hk ?_ ⟨z, hz, hkz⟩
          intro hmem
          rcases List.mem_cons.mp hmem with rfl | hmem
          · exact hx rfl
          · exact hseen hmem

theorem dedupNews_keeps_first {R : NewsItem → NewsItem → Prop} :
    ∀ (l : List NewsItem) (seen : List (List Char)), l.Pairwise R →
      ∀ y ∈ dedupNews l seen, ∀ x ∈ l, newsKey x = newsKey y → x = y ∨ R y x
  | [], _, _, y, hy => by simp [dedupNews] at hy
  | z :: rest, seen, hpw, y, hy => by
    rcases List.pairwise_cons.mp hpw with ⟨h1, h2⟩
    by_cases h : newsKey z = [] ∨ newsKey z ∈ seen
    · rw [dedupNews, if_pos h] at hy
      intro x hx hkxy
      rcases List.mem_cons.mp hx with rfl | hx
      · rcases dedupNews_key_fresh rest seen y hy with ⟨hne, hns⟩
        rcases h with h | h
        · exact absurd (hkxy.symm.trans h) hne
        · exact absurd (hkxy ▸ h) hns
      · exact dedupNews_keeps_first rest seen h2 y hy x hx hkxy
    · rw [dedupNews, if_neg h] at hy
      intro x hx hkxy
      rcases List.mem_cons.mp hy with rfl | hy
      · rcases List.mem_cons.mp hx with rfl | hx
        · exact Or.inl rfl
        · exact Or.inr (h1 x hx)
      · rcases List.mem_cons.mp hx with rfl | hx
        · exfalso
          have hmem : newsKey y ∈ newsKey x :: seen := by
            rw [hkxy]
            exact List.mem_cons_self _ _
          exact (dedupNews_key_fresh rest (newsKey x :: seen) y hy).2 hmem
        · exact dedupNews_keeps_first rest (newsKey z :: seen) h2 y hy x hx hkxy

/-! ### Claims about the news aggregator -/

/-- C2 (counterexample): with feed A reachable but both feed-B endpoints
unreachable, `fetch_crypto_news` fails (`none`) instead of returning feed
A's items alone as the claim states. -/
theorem claim_C2_cex :
    fetch_crypto_news 12 8 (some [⟨"t", "L", some 5, none⟩]) none none = none := rfl

/-- C2 (amended): if feed B's primary endpoint fails but its alternate
succeeds, the call does not fail; if both feed-B endpoints fail, the whole
call fails even though feed A succeeded. -/
theorem claim_C2 (limit_each final_limit : Nat) (aE bAlt : List RawEntry) :
    (fetch_crypto_news limit_each final_limit (some aE) none (some bAlt)).isSome = true ∧
    fetch_crypto_news limit_each final_limit (some aE) none none = none := by
  constructor
  · simp [fetch_crypto_news, feedB_entries]
  · rfl

/-- C5: among merged entries sharing one (non-empty) identity key, exactly
one survives the dedup walk, and its timestamp is at least every
duplicate's timestamp. -/
theorem claim_C5 (limit_each : Nat) (aE bE : List RawEntry) (k : List Char)
    (hk : k ≠ []) (hocc : ∃ x ∈ merge_feeds limit_each aE bE, newsKey x = k) :
    (((dedupNews (sortDesc (merge_feeds limit_each aE bE)) []).filter
        (fun y => newsKey y = k)).length = 1) ∧
    ∀ y ∈ dedupNews (sortDesc (merge_feeds limit_each aE bE)) [], newsKey y = k →
      ∀ x ∈ merge_feeds limit_each aE bE, newsKey x = k →
        x.published_ts ≤ y.published_ts := by
  have hperm := sortDesc_perm (merge_feeds limit_each aE bE)
  constructor
  · refine dedupNews_count_one _ [] k hk (by simp) ?_
    rcases hocc with ⟨x, hx, hkx⟩
    exact ⟨x, hperm.mem_iff.mpr hx, hkx⟩
  · intro y hy hky x hx hkx
    have hxs : x ∈ sortDesc (merge_feeds limit_each aE bE) := hperm.mem_iff.mpr hx
    have := dedupNews_keeps_first (R := fun a b => b.published_ts ≤ a.published_ts)
      (sortDesc (merge_feeds limit_each aE bE)) [] (sortDesc_pairwise _) y hy x hxs
      (by rw [hkx, hky])
    rcases this with rfl | hle
    · exact Nat.le_refl _
    · exact hle

/-- C5 (witness): two feed-A entries share link `"L"`; the later one
(timestamp 5) is the unique survivor. -/
theorem claim_C5_witness :
    (((dedupNews (sortDesc (merge_feeds 12
        [⟨"t", "L", some 5, none⟩, ⟨"u", "L", some 3, none⟩] [])) []).filter
        (fun y => newsKey y = ['L'])).length = 1) ∧
    ∀ y ∈ dedupNews (sortDesc (merge_feeds 12
        [⟨"t", "L", some 5, none⟩, ⟨"u", "L", some 3, none⟩] [])) [],
      newsKey y = ['L'] →
      ∀ x ∈ merge_feeds 12 [⟨"t", "L", some 5, none⟩, ⟨"u", "L", some 3, none⟩] [],
        newsKey x = ['L'] → x.published_ts ≤ y.published_ts :=
  claim_C5 12 [⟨"t", "L", some 5, none⟩, ⟨"u", "L", some 3, none⟩] []
    ['L'] (by decide) ⟨⟨"t", "L", 5, "Investing.com"⟩, by decide, by decide⟩

/-- C6: a successful `fetch_crypto_news` returns at most `final_limit`
items, in non-increasing order of `published_ts`; and `fetch_rss_items`
assigns timestamp `0` exactly when an entry has no parseable timestamp
(a non-zero output timestamp always comes from one of the entry's two
parsed fields). -/
theorem claim_C6 (limit_each final_limit : Nat)
    (feedA fbPrimary fbAlternate : Option (List RawEntry)) (res : List NewsItem)
    (hres : fetch_crypto_news limit_each final_limit feedA fbPrimary fbAlternate = some res) :
    res.length ≤ final_limit ∧
    res.Pairwise (fun a b => b.published_ts ≤ a.published_ts) ∧
    ∀ (es : List RawEntry) (lim : Nat) (x : NewsItem), x ∈ fetch_rss_items es lim →
      x.published_ts ≠ 0 →
      ∃ e ∈ es, e.published_parsed = some x.published_ts ∨
        e.updated_parsed = some x.published_ts := by
  rcases feedA with _ | aE
  · exact absurd hres (by simp [fetch_crypto_news])
  rcases hB : feedB_entries fbPrimary fbAlternate with _ | bE
  · rw [fetch_crypto_news, hB] at hres
    exact absurd hres (by simp)
  rw [fetch_crypto_news, hB, Option.some_inj] at hres
  subst hres
  refine ⟨List.length_take_le _ _, ?_, ?_⟩
  · refine List.Pairwise.sublist ?_ (sortDesc_pairwise (merge_feeds limit_each aE bE))
    exact (List.take_sublist _ _).trans (dedupNews_sublist _ _)
  · intro es lim x hx hts
    rw [fetch_rss_items] at hx
    rcases List.mem_map.mp hx with ⟨e, he, rfl⟩
    refine ⟨e, List.mem_of_mem_take he, ?_⟩
    rcases hpp : e.published_parsed with _ | t
    · rcases hup : e.updated_parsed with _ | t
      · exact absurd (by simp [hpp, hup]) hts
      · exact Or.inr (by simp [hpp, hup])
    · exact Or.inl (by simp [hpp])

/-- C6 (witness): a single entry with no parseable timestamp yields one
item with timestamp 0, trivially within the limit and sorted. -/
theorem claim_C6_witness :
    ([(⟨"t", "L", 0, "Investing.com"⟩ : NewsItem)]).length ≤ 8 ∧
    ([(⟨"t", "L", 0, "Investing.com"⟩ : NewsItem)]).Pairwise
      (fun a b => b.published_ts ≤ a.published_ts) ∧
    ∀ (es : List RawEntry) (lim : Nat) (x : NewsItem), x ∈ fetch_rss_items es lim →
      x.published_ts ≠ 0 →
      ∃ e ∈ es, e.published_parsed = some x.published_ts ∨
        e.updated_parsed = some x.published_ts :=
  claim_C6 12 8 (some [⟨"t", "L", none, none⟩]) none (some []) _ (by decide)

/-- C10: every item a successful `fetch_crypto_news` returns has a
non-empty stripped link or a non-empty stripped title; an entry with both
blank is silently dropped. -/
theorem claim_C10 (limit_each final_limit : Nat)
    (feedA fbPrimary fbAlternate : Option (List RawEntry)) (res : List NewsItem)
    (hres : fetch_crypto_news limit_each final_limit feedA fbPrimary fbAlternate = some res) :
    ∀ x ∈ res, ¬(strTrim x.link = [] ∧ strTrim x.title = []) := by
  rcases feedA with _ | aE
  · exact absurd hres (by simp [fetch_crypto_news])
  rcases hB : feedB_entries fbPrimary fbAlternate with _ | bE
  · rw [fetch_crypto_news, hB] at hres
    exact absurd hres (by simp)
  rw [fetch_crypto_news, hB, Option.some_inj] at hres
  subst hres
  intro x hx ⟨hlink, htitle⟩
  have hxd : x ∈ dedupNews (sortDesc (merge_feeds limit_each aE bE)) [] :=
    List.mem_of_mem_take hx
  have hne := (dedupNews_key_fresh _ _ x hxd).1
  apply hne
  rw [newsKey, if_neg (by simp [hlink]), htitle]
  rfl

/-- C10 (witness): an entry with blank link and blank title never shows
up; the surviving item here has link `"L"`. -/
theorem claim_C10_witness :
    ¬(strTrim "L" = [] ∧ strTrim "t" = []) :=
  claim_C10 12 8
    (some [⟨"t", "L", some 5, none⟩, ⟨"  ", " ", some 9, none⟩]) none (some [])
    [⟨"t", "L", 5, "Investing.com"⟩] (by decide)
    ⟨"t", "L", 5, "Investing.com"⟩ (by decide)

/-! ### Claims about the watch store and validation -/

/-- C4: `db_deactivate_alert` is idempotent and total: for every store
state and every id (present, already inactive, or absent), deactivating
twice leaves exactly the state of deactivating once; as a total function
it never errors. -/
theorem claim_C4 (db : DB) (aid : Nat) :
    db_deactivate_alert (db_deactivate_alert db aid) aid = db_deactivate_alert db aid := by
  unfold db_deactivate_alert
  simp only [List.map_map]
  congr 1
  refine List.map_congr_left ?_
  intro a _
  by_cases h : a.id = aid
  · simp [Function.comp, h]
  · simp [Function.comp, h]

/-- `float(raw)` of a digit string is never negative. -/
theorem parseDec_nonneg (cs : List Char) : 0 ≤ parseDec cs := by
  simp only [parseDec]
  split
  · exact add_nonneg (Nat.cast_nonneg _)
      (div_nonneg (Nat.cast_nonneg _) (pow_nonneg (by norm_num) _))
  · exact Nat.cast_nonneg _

/-- C8: the target validation of `on_text`: `"42000"` is accepted and
stored as the value 42000, `"abc"` and `"42,000.00xyz"` are rejected with
no store write, and in general any input failing the decimal pattern
(after stripping and removing commas) leaves the store untouched. -/
theorem claim_C8 (db : DB) (chat : Int) (symbol coin_id direction : String) (now : Nat) :
    on_text_target db chat symbol coin_id direction "42000" now
      = db_add_alert db chat symbol coin_id direction 42000 now ∧
    on_text_target db chat symbol coin_id direction "abc" now = db ∧
    on_text_target db chat symbol coin_id direction "42,000.00xyz" now = db ∧
    ∀ text : String, decMatch (pyStripCommas text) = false →
      on_text_target db chat symbol coin_id direction text now = db := by
  refine ⟨?_, ?_, ?_, ?_⟩
  · have h : validate_target "42000" = some 42000 := by decide
    rw [on_text_target, h]
  · have h : validate_target "abc" = none := by decide
    rw [on_text_target, h]
  · have h : validate_target "42,000.00xyz" = none := by decide
    rw [on_text_target, h]
  · intro text h
    rw [on_text_target, validate_target]
    simp only [h, Bool.false_eq_true, if_false]

/-- C8 (witness): the accepted and a rejected input, on the empty store. -/
theorem claim_C8_witness :
    on_text_target dbInit 1 "BTC" "bitcoin" "above" "42000" 0
      = db_add_alert dbInit 1 "BTC" "bitcoin" "above" 42000 0 ∧
    on_text_target dbInit 1 "BTC" "bitcoin" "above" "zz" 0 = dbInit :=
  ⟨(claim_C8 dbInit 1 "BTC" "bitcoin" "above" 0).1,
   (claim_C8 dbInit 1 "BTC" "bitcoin" "above" 0).2.2.2 "zz" (by decide)⟩

/-- C9 (counterexample): the input `"0"` passes validation and is
persisted with `target_usd = 0`, so not every stored watch has a strictly
positive target. -/
theorem claim_C9_cex :
    ¬ ∀ a ∈ (on_text_target dbInit 1 "BTC" "bitcoin" "above" "0" 0).alerts,
        0 < a.target_usd := by decide

/-- C9 (amended): every watch that the validated creation path adds to
the store has a non-negative (not necessarily positive) target value. -/
theorem claim_C9 (db : DB) (chat : Int) (symbol coin_id direction text : String) (now : Nat) :
    ∀ a ∈ (on_text_target db chat symbol coin_id direction text now).alerts,
      a ∈ db.alerts ∨ 0 ≤ a.target_usd := by
  intro a ha
  rw [on_text_target] at ha
  rcases hv : validate_target text with _ | t
  · rw [hv] at ha
    exact Or.inl ha
  · rw [hv] at ha
    simp only [db_add_alert] at ha
    rcases List.mem_append.mp ha with h | h
    · exact Or.inl h
    · right
      have ha2 := List.mem_singleton.mp h
      subst ha2
      show (0:ℚ) ≤ t
      simp only [validate_target] at hv
      split at hv
      · cases hv
        exact parseDec_nonneg _
      · exact Option.noConfusion hv

/-- C9 (witness): the zero-target row created from input `"0"` is not in
the empty initial store, so the non-negativity disjunct is what holds. -/
theorem claim_C9_witness :
    (⟨1, 1, "BTC", "bitcoin", "above", 0, true, 0⟩ : Alert) ∈ dbInit.alerts ∨
      (0:ℚ) ≤ (⟨1, 1, "BTC", "bitcoin", "above", 0, true, 0⟩ : Alert).target_usd :=
  claim_C9 dbInit 1 "BTC" "bitcoin" "above" "0" 0
    ⟨1, 1, "BTC", "bitcoin", "above", 0, true, 0⟩ (by decide)

/-! ### Characterizing one tick of the checker -/

/-- The notifications one coin group contributes during a tick. -/
def coinNotifs (prices : String → Option (ℚ × ℚ)) (active : List Alert) (coin : String) :
    List Notification :=
  match prices coin with
  | none => []
  | some (usd, idr) =>
    ((active.filter (fun a => a.coin_id = coin)).filter (trig usd)).map
      (fun a => mkNotif a usd idr)

/-- All notifications a tick over the snapshot `active` emits, in order. -/
def tickNotifs (prices : String → Option (ℚ × ℚ)) (active : List Alert) :
    List Notification :=
  (dedupFirst (active.map (fun a => a.coin_id))).flatMap (coinNotifs prices active)

/-- Deactivate, in order, the row of every listed notification. -/
def deactivateAll (db : DB) (ns : List Notification) : DB :=
  ns.foldl (fun d n => db_deactivate_alert d n.aid) db

theorem deactivateAll_append (db : DB) (ns1 ns2 : List Notification) :
    deactivateAll db (ns1 ++ ns2) = deactivateAll (deactivateAll db ns1) ns2 := by
  simp [deactivateAll, List.foldl_append]

theorem dedupFirstAux_not_mem_seen :
    ∀ (l seen : List String) (c : String), c ∈ dedupFirstAux seen l → c ∉ seen
  | [], _, c, hc => by simp [dedupFirstAux] at hc
  | d :: rest, seen, c, hc => by
    by_cases h : d ∈ seen
    · rw [dedupFirstAux, if_pos h] at hc
      exact dedupFirstAux_not_mem_seen rest seen c hc
    · rw [dedupFirstAux, if_neg h] at hc
      rcases List.mem_cons.mp hc with rfl | hc
      · exact h
      · intro hcs
        exact dedupFirstAux_not_mem_seen rest (d :: seen) c hc (List.mem_cons_of_mem _ hcs)

theorem mem_dedupFirstAux :
    ∀ (l seen : List String) (c : String), c ∈ l → c ∉ seen → c ∈ dedupFirstAux seen l
  | [], _, c, hc, _ => by simp at hc
  | d :: rest, seen, c, hc, hs => by
    by_cases h : d ∈ seen
    · rw [dedupFirstAux, if_pos h]
      rcases List.mem_cons.mp hc with rfl | hc
      · exact absurd h hs
      · exact mem_dedupFirstAux rest seen c hc hs
    · rw [dedupFirstAux, if_neg h]
      rcases List.mem_cons.mp hc with rfl | hc
      · exact List.mem_cons_self _ _
      · by_cases hcd : c = d
        · exact hcd ▸ List.mem_cons_self _ _
        · refine List.mem_cons_of_mem _ (mem_dedupFirstAux rest (d :: seen) c hc ?_)
          intro hmem
          rcases List.mem_cons.mp hmem with h1 | h1
          · exact hcd h1
          · exact hs h1

theorem dedupFirstAux_nodup : ∀ (l seen : List String), (dedupFirstAux seen l).Nodup
  | [], _ => by simp [dedupFirstAux]
  | d :: rest, seen => by
    by_cases h : d ∈ seen
    · rw [dedupFirstAux, if_pos h]
      exact dedupFirstAux_nodup rest seen
    · rw [dedupFirstAux, if_neg h]
      refine List.nodup_cons.mpr ⟨?_, dedupFirstAux_nodup rest (d :: seen)⟩
      intro hmem
      exact dedupFirstAux_not_mem_seen rest (d :: seen) d hmem (List.mem_cons_self _ _)

theorem foldl_processAlert (usd idr : ℚ) :
    ∀ (l : List Alert) (db : DB) (ns : List Notification),
      l.foldl (processAlert usd idr) (db, ns)
        = (deactivateAll db ((l.filter (trig usd)).map (fun a => mkNotif a usd idr)),
           ns ++ (l.filter (trig usd)).map (fun a => mkNotif a usd idr))
  | [], db, ns => by simp [deactivateAll]
  | a :: l, db, ns => by
    rw [List.foldl_cons]
    by_cases h : trig usd a = true
    · have hpa : processAlert usd idr (db, ns) a
          = (db_deactivate_alert db a.id, ns ++ [mkNotif a usd idr]) := by
        simp [processAlert, h]
      rw [hpa, foldl_processAlert usd idr l, List.filter_cons_of_pos h]
      simp only [List.map_cons]
      refine Prod.ext ?_ ?_
      · show deactivateAll (db_deactivate_alert db a.id) _ = deactivateAll db _
        simp [deactivateAll, List.foldl_cons, mkNotif]
      · simp
    · have hpa : processAlert usd idr (db, ns) a = (db, ns) := by
        simp [processAlert, h]
      rw [hpa, foldl_processAlert usd idr l, List.filter_cons_of_neg h]

theorem foldl_processCoin (prices : String → Option (ℚ × ℚ)) (active : List Alert) :
    ∀ (coins : List String) (db : DB) (ns : List Notification),
      coins.foldl (processCoin prices active) (db, ns)
        = (deactivateAll db (coins.flatMap (coinNotifs prices active)),
           ns ++ coins.flatMap (coinNotifs prices active))
  | [], db, ns => by simp [deactivateAll]
  | c :: coins, db, ns => by
    rw [List.foldl_cons]
    rcases hp : prices c with _ | ⟨usd, idr⟩
    · have hpc : processCoin prices active (db, ns) c = (db, ns) := by
        simp [processCoin, hp]
      rw [hpc, foldl_processCoin prices active coins db ns]
      simp [List.flatMap_cons, coinNotifs, hp]
    · have hpc : processCoin prices active (db, ns) c
          = (active.filter (fun a => a.coin_id = c)).foldl (processAlert usd idr) (db, ns) := by
        simp [processCoin, hp]
      rw [hpc, foldl_processAlert, foldl_processCoin prices active coins]
      rw [List.flatMap_cons]
      have hcn : coinNotifs prices active c
          = ((active.filter (fun a => a.coin_id = c)).filter (trig usd)).map
              (fun a => mkNotif a usd idr) := by
        simp [coinNotifs, hp]
      rw [← hcn, deactivateAll_append, List.append_assoc]

theorem alert_checker_spec (prices : String → Option (ℚ × ℚ)) (db : DB) :
    alert_checker prices db
      = (deactivateAll db (tickNotifs prices (db_get_active_alerts db)),
         tickNotifs prices (db_get_active_alerts db)) := by
  simp only [alert_checker, tickNotifs]
  rw [foldl_processCoin]
  simp

theorem mem_tickNotifs (prices : String → Option (ℚ × ℚ)) (active : List Alert)
    (n : Notification) :
    n ∈ tickNotifs prices active ↔
      ∃ a ∈ active, ∃ usd idr, prices a.coin_id = some (usd, idr) ∧
        trig usd a = true ∧ n = mkNotif a usd idr := by
  rw [tickNotifs]
  constructor
  · intro hn
    rcases List.mem_flatMap.mp hn with ⟨c, _, hnc⟩
    rcases hp : prices c with _ | ⟨usd, idr⟩
    · rw [coinNotifs, hp] at hnc
      simp at hnc
    · rw [coinNotifs, hp] at hnc
      rcases List.mem_map.mp hnc with ⟨a, haf, rfl⟩
      rcases List.mem_filter.mp haf with ⟨haf2, htr⟩
      rcases List.mem_filter.mp haf2 with ⟨ha, hcoin⟩
      have hcoin' : a.coin_id = c := by simpa using hcoin
      exact ⟨a, ha, usd, idr, by rw [hcoin', hp], htr, rfl⟩
  · rintro ⟨a, ha, usd, idr, hp, htr, rfl⟩
    refine List.mem_flatMap.mpr ⟨a.coin_id, ?_, ?_⟩
    · exact mem_dedupFirstAux _ [] _ (List.mem_map_of_mem _ ha) (by simp)
    · rw [coinNotifs, hp]
      refine List.mem_map_of_mem _ ?_
      exact List.mem_filter.mpr ⟨List.mem_filter.mpr ⟨ha, by simp⟩, htr⟩

theorem mem_coinNotifs_aid (prices : String → Option (ℚ × ℚ)) (active : List Alert)
    (c : String) (x : Nat) :
    x ∈ (coinNotifs prices active c).map (fun n => n.aid) →
      ∃ a ∈ active, a.coin_id = c ∧ x = a.id := by
  intro hx
  rcases hp : prices c with _ | ⟨usd, idr⟩
  · rw [coinNotifs, hp] at hx
    simp at hx
  · rw [coinNotifs, hp] at hx
    rcases List.mem_map.mp hx with ⟨n, hn, rfl⟩
    rcases List.mem_map.mp hn with ⟨a, haf, rfl⟩
    rcases List.mem_filter.mp haf with ⟨haf2, _⟩
    rcases List.mem_filter.mp haf2 with ⟨ha, hcoin⟩
    exact ⟨a, ha, by simpa using hcoin, rfl⟩

theorem tickNotifs_aid_nodup (prices : String → Option (ℚ × ℚ)) (active : List Alert)
    (h : (active.map (fun a => a.id)).Nodup) :
    ((tickNotifs prices active).map (fun n => n.aid)).Nodup := by
  rw [tickNotifs, List.map_flatMap]
  refine List.nodup_flatMap.mpr ⟨?_, ?_⟩
  · intro c _
    rcases hp : prices c with _ | ⟨usd, idr⟩
    · simp [coinNotifs, hp]
    · rw [coinNotifs, hp, List.map_map]
      have heq : ((fun n : Notification => n.aid) ∘ fun a => mkNotif a usd idr)
          = fun a : Alert => a.id := rfl
      rw [heq]
      refine h.sublist ?_
      exact ((List.filter_sublist _).trans (List.filter_sublist _)).map _
  · refine (dedupFirstAux_nodup (active.map (fun a => a.coin_id)) []).imp ?_
    intro c d hcd x hxc hxd
    rcases mem_coinNotifs_aid prices active c x hxc with ⟨a1, ha1, hc1, rfl⟩
    rcases mem_coinNotifs_aid prices active d a1.id hxd with ⟨a2, ha2, hc2, hid⟩
    have : a1 = a2 := List.inj_on_of_nodup_map h ha1 ha2 hid
    exact hcd (by rw [← hc1, this, hc2])

/-! ### Effect of deactivation on rows -/

theorem deact_alerts_map_id (db : DB) (k : Nat) :
    (db_deactivate_alert db k).alerts.map (fun a => a.id)
      = db.alerts.map (fun a => a.id) := by
  rw [db_deactivate_alert, List.map_map]
  refine List.map_congr_left ?_
  intro a _
  by_cases h : a.id = k
  · simp [Function.comp, h]
  · simp [Function.comp, h]

theorem deact_next_id (db : DB) (k : Nat) :
    (db_deactivate_alert db k).next_id = db.next_id := rfl

theorem deact_sets_inactive (db : DB) (k : Nat) :
    ∀ a ∈ (db_deactivate_alert db k).alerts, a.id = k → a.is_active = false := by
  intro a ha hid
  rcases List.mem_map.mp ha with ⟨b, _, rfl⟩
  by_cases h : b.id = k
  · simp [h]
  · rw [if_neg h] at hid ⊢
    exact absurd hid h

theorem deact_keeps_inactive (db : DB) (j k : Nat)
    (h : ∀ a ∈ db.alerts, a.id = k → a.is_active = false) :
    ∀ a ∈ (db_deactivate_alert db j).alerts, a.id = k → a.is_active = false := by
  intro a ha hid
  rcases List.mem_map.mp ha with ⟨b, hb, rfl⟩
  by_cases hj : b.id = j
  · simp [hj]
  · rw [if_neg hj] at hid ⊢
    exact h b hb hid

theorem deactivateAll_keeps_inactive :
    ∀ (ns : List Notification) (db : DB) (k : Nat),
      (∀ a ∈ db.alerts, a.id = k → a.is_active = false) →
      ∀ a ∈ (deactivateAll db ns).alerts, a.id = k → a.is_active = false
  | [], _, _, h => h
  | n :: ns, db, k, h =>
    deactivateAll_keeps_inactive ns (db_deactivate_alert db n.aid) k
      (deact_keeps_inactive db n.aid k h)

theorem deactivateAll_sets_inactive :
    ∀ (ns : List Notification) (db : DB) (n : Notification), n ∈ ns →
      ∀ a ∈ (deactivateAll db ns).alerts, a.id = n.aid → a.is_active = false
  | [], _, _, hn => by simp at hn
  | m :: ns, db, n, hn => by
    rcases List.mem_cons.mp hn with rfl | hn
    · exact deactivateAll_keeps_inactive ns (db_deactivate_alert db n.aid) n.aid
        (deact_sets_inactive db n.aid)
    · exact deactivateAll_sets_inactive ns (db_deactivate_alert db m.aid) n hn

theorem deactivateAll_next_id :
    ∀ (ns : List Notification) (db : DB), (deactivateAll db ns).next_id = db.next_id
  | [], _ => rfl
  | n :: ns, db => deactivateAll_next_id ns (db_deactivate_alert db n.aid)

theorem deactivateAll_alerts_map_id :
    ∀ (ns : List Notification) (db : DB),
      (deactivateAll db ns).alerts.map (fun a => a.id) = db.alerts.map (fun a => a.id)
  | [], _ => rfl
  | n :: ns, db => by
    rw [deactivateAll, List.foldl_cons]
    exact (deactivateAll_alerts_map_id ns (db_deactivate_alert db n.aid)).trans
      (deact_alerts_map_id db n.aid)

theorem deactivateAll_mem_of_fresh :
    ∀ (ns : List Notification) (db : DB) (a : Alert), a ∈ db.alerts →
      (∀ n ∈ ns, n.aid ≠ a.id) → a ∈ (deactivateAll db ns).alerts
  | [], _, _, ha, _ => ha
  | n :: ns, db, a, ha, hfresh => by
    refine deactivateAll_mem_of_fresh ns (db_deactivate_alert db n.aid) a ?_
      (fun m hm => hfresh m (List.mem_cons_of_mem _ hm))
    rw [db_deactivate_alert]
    have : a = if a.id = n.aid then { a with is_active := false } else a := by
      rw [if_neg (fun h => hfresh n (List.mem_cons_self _ _) h.symm)]
    exact this ▸ List.mem_map_of_mem _ ha

/-! ### Claims about one tick -/

/-- C3: during a tick, an active watch whose coin's price fetch succeeded
is notified (and so triggered) exactly when (direction `above` and
`target ≤ price`) or (direction `below` and `price ≤ target`); equality
triggers both ways. -/
theorem claim_C3 (prices : String → Option (ℚ × ℚ)) (db : DB) (a : Alert) (usd idr : ℚ)
    (hnodup : (db.alerts.map (fun x => x.id)).Nodup)
    (ha : a ∈ db.alerts) (hact : a.is_active = true)
    (hp : prices a.coin_id = some (usd, idr)) :
    (∃ n ∈ (alert_checker prices db).2, n.aid = a.id) ↔
      ((a.direction = "above" ∧ a.target_usd ≤ usd) ∨
       (a.direction = "below" ∧ usd ≤ a.target_usd)) := by
  rw [alert_checker_spec]
  have hmem : a ∈ db_get_active_alerts db :=
    List.mem_filter.mpr ⟨ha, by simp [hact]⟩
  constructor
  · rintro ⟨n, hn, hnaid⟩
    rcases (mem_tickNotifs prices (db_get_active_alerts db) n).mp hn with
      ⟨b, hb, usd2, idr2, hp2, htr, rfl⟩
    have hb' : b ∈ db.alerts := (List.mem_filter.mp hb).1
    have hab : b = a := List.inj_on_of_nodup_map hnodup hb' ha hnaid
    subst hab
    rw [hp] at hp2
    have husd : usd2 = usd := (congrArg Prod.fst (Option.some_inj.mp hp2)).symm
    subst husd
    rw [trig] at htr
    rcases Bool.or_eq_true_iff.mp htr with h | h
    · rcases Bool.and_eq_true_iff.mp h with ⟨h1, h2⟩
      exact Or.inl ⟨beq_iff_eq.mp h1, of_decide_eq_true h2⟩
    · rcases Bool.and_eq_true_iff.mp h with ⟨h1, h2⟩
      exact Or.inr ⟨beq_iff_eq.mp h1, of_decide_eq_true h2⟩
  · intro hcond
    have htr : trig usd a = true := by
      rw [trig]
      rcases hcond with ⟨h1, h2⟩ | ⟨h1, h2⟩
      · exact Bool.or_eq_true_iff.mpr (Or.inl (Bool.and_eq_true_iff.mpr
          ⟨beq_iff_eq.mpr h1, decide_eq_true h2⟩))
      · exact Bool.or_eq_true_iff.mpr (Or.inr (Bool.and_eq_true_iff.mpr
          ⟨beq_iff_eq.mpr h1, decide_eq_true h2⟩))
    exact ⟨mkNotif a usd idr,
      (mem_tickNotifs prices (db_get_active_alerts db) _).mpr
        ⟨a, hmem, usd, idr, hp, htr, rfl⟩, rfl⟩

/-- Store with one active BTC watch, direction `above`, target 50000. -/
def c3db : DB := ⟨[⟨1, 7, "BTC", "bitcoin", "above", 50000, true, 0⟩], 2⟩

/-- Price environment: bitcoin trades at exactly the target. -/
def c3prices : String → Option (ℚ × ℚ) :=
  fun c => if c = "bitcoin" then some (50000, 800000000) else none

/-- C3 (witness): price exactly equal to an `above` target emits the
notification (inclusive boundary). -/
theorem claim_C3_witness :
    ∃ n ∈ (alert_checker c3prices c3db).2,
      n.aid = (⟨1, 7, "BTC", "bitcoin", "above", 50000, true, 0⟩ : Alert).id :=
  (claim_C3 c3prices c3db ⟨1, 7, "BTC", "bitcoin", "above", 50000, true, 0⟩ 50000 800000000
    (by decide) (by decide) rfl (by decide)).mpr (Or.inl ⟨rfl, le_refl _⟩)

/-- C7: during a tick whose price fetch failed for watch `a`'s asset, the
row `a` is carried over unchanged and no notification carries its id,
while an active, triggering watch `b` on an asset whose fetch succeeded
is still notified in the same tick. -/
theorem claim_C7 (prices : String → Option (ℚ × ℚ)) (db : DB) (a b : Alert) (usd idr : ℚ)
    (hnodup : (db.alerts.map (fun x => x.id)).Nodup)
    (ha : a ∈ db.alerts) (hfail : prices a.coin_id = none)
    (hb : b ∈ db.alerts) (hbact : b.is_active = true)
    (hbp : prices b.coin_id = some (usd, idr)) (hbt : trig usd b = true) :
    a ∈ (alert_checker prices db).1.alerts ∧
    (∀ n ∈ (alert_checker prices db).2, n.aid ≠ a.id) ∧
    mkNotif b usd idr ∈ (alert_checker prices db).2 := by
  rw [alert_checker_spec]
  have hfree : ∀ n ∈ tickNotifs prices (db_get_active_alerts db), n.aid ≠ a.id := by
    intro n hn heq
    rcases (mem_tickNotifs prices (db_get_active_alerts db) n).mp hn with
      ⟨c, hc, u2, i2, hp2, _, rfl⟩
    have hc' : c ∈ db.alerts := (List.mem_filter.mp hc).1
    have hca : c = a := List.inj_on_of_nodup_map hnodup hc' ha heq
    rw [hca, hfail] at hp2
    exact Option.noConfusion hp2
  refine ⟨?_, hfree, ?_⟩
  · exact deactivateAll_mem_of_fresh _ db a ha hfree
  · exact (mem_tickNotifs prices (db_get_active_alerts db) _).mpr
      ⟨b, List.mem_filter.mpr ⟨hb, by simp [hbact]⟩, usd, idr, hbp, hbt, rfl⟩

/-- Store with an active BTC watch (id 1) and an active ETH watch (id 2). -/
def c7db : DB :=
  ⟨[⟨1, 7, "BTC", "bitcoin", "above", 5, true, 0⟩,
    ⟨2, 7, "ETH", "ethereum", "above", 1, true, 0⟩], 3⟩

/-- Price environment: the bitcoin fetch succeeds, the ethereum fetch
raises. -/
def c7prices : String → Option (ℚ × ℚ) :=
  fun c => if c = "bitcoin" then some (5, 80) else none

/-- C7 (witness): the ETH watch survives the failed fetch untouched while
the BTC watch is notified in the same tick. -/
theorem claim_C7_witness :
    (⟨2, 7, "ETH", "ethereum", "above", 1, true, 0⟩ : Alert)
        ∈ (alert_checker c7prices c7db).1.alerts ∧
    (∀ n ∈ (alert_checker c7prices c7db).2,
      n.aid ≠ (⟨2, 7, "ETH", "ethereum", "above", 1, true, 0⟩ : Alert).id) ∧
    mkNotif ⟨1, 7, "BTC", "bitcoin", "above", 5, true, 0⟩ 5 80
        ∈ (alert_checker c7prices c7db).2 :=
  claim_C7 c7prices c7db ⟨2, 7, "ETH", "ethereum", "above", 1, true, 0⟩
    ⟨1, 7, "BTC", "bitcoin", "above", 5, true, 0⟩ 5 80
    (by decide) (by decide) (by decide) (by decide) rfl (by decide) (by decide)

/-! ### The lifecycle invariant over operation traces -/

/-- The id column of the store. -/
def dbIds (db : DB) : List Nat := db.alerts.map (fun a => a.id)

/-- Store sanity: ids are unique and below the AUTOINCREMENT counter.
Holds at `dbInit` and is preserved by every operation. -/
def WF (db : DB) : Prop :=
  (dbIds db).Nodup ∧ ∀ x ∈ dbIds db, x < db.next_id

/-- "`aid` is spent": below the id counter and inactive wherever present.
Once true it stays true, and a spent id is never notified again. -/
def deadId (db : DB) (aid : Nat) : Prop :=
  aid < db.next_id ∧ ∀ a ∈ db.alerts, a.id = aid → a.is_active = false

theorem dbIds_deact (db : DB) (k : Nat) : dbIds (db_deactivate_alert db k) = dbIds db :=
  deact_alerts_map_id db k

theorem dbIds_deactivateAll (db : DB) (ns : List Notification) :
    dbIds (deactivateAll db ns) = dbIds db :=
  deactivateAll_alerts_map_id ns db

theorem WF_runOp (db : DB) (op : Op) (hwf : WF db) : WF (runOp db op).1 := by
  cases op with
  | add c s ci d t now =>
    constructor
    · show (dbIds (db_add_alert db c s ci d t now)).Nodup
      have : dbIds (db_add_alert db c s ci d t now) = dbIds db ++ [db.next_id] := by
        simp [dbIds, db_add_alert]
      rw [this]
      refine List.Nodup.append hwf.1 (List.nodup_singleton _) ?_
      intro x hx hmem
      rw [List.mem_singleton.mp hmem] at hx
      exact absurd (hwf.2 _ hx) (lt_irrefl _)
    · intro x hx
      rw [show (runOp db (Op.add c s ci d t now)).1 = db_add_alert db c s ci d t now
        from rfl] at hx
      have : dbIds (db_add_alert db c s ci d t now) = dbIds db ++ [db.next_id] := by
        simp [dbIds, db_add_alert]
      rw [this] at hx
      show x < db.next_id + 1
      rcases List.mem_append.mp hx with h | h
      · exact Nat.lt_succ_of_lt (hwf.2 x h)
      · rw [List.mem_singleton.mp h]
        exact Nat.lt_succ_self _
  | deact j =>
    refine ⟨?_, ?_⟩
    · show (dbIds (db_deactivate_alert db j)).Nodup
      rw [dbIds_deact]
      exact hwf.1
    · intro x hx
      rw [show (runOp db (Op.deact j)).1 = db_deactivate_alert db j from rfl,
        dbIds_deact] at hx
      exact hwf.2 x hx
  | tick prices =>
    have hspec : (runOp db (Op.tick prices)).1
        = deactivateAll db (tickNotifs prices (db_get_active_alerts db)) := by
      show (alert_checker prices db).1 = _
      rw [alert_checker_spec]
    refine ⟨?_, ?_⟩
    · rw [hspec, dbIds_deactivateAll]
      exact hwf.1
    · intro x hx
      rw [hspec, dbIds_deactivateAll] at hx
      rw [hspec, deactivateAll_next_id]
      exact hwf.2 x hx

theorem dead_runOp (db : DB) (op : Op) (aid : Nat) (hd : deadId db aid) :
    deadId (runOp db op).1 aid := by
  cases op with
  | add c s ci d t now =>
    refine ⟨Nat.lt_succ_of_lt hd.1, ?_⟩
    intro a ha hid
    rcases List.mem_append.mp ha with h | h
    · exact hd.2 a h hid
    · rw [List.mem_singleton.mp h] at hid
      exact absurd (hid ▸ hd.1) (lt_irrefl _)
  | deact j =>
    exact ⟨hd.1, deact_keeps_inactive db j aid hd.2⟩
  | tick prices =>
    have hspec : (runOp db (Op.tick prices)).1
        = deactivateAll db (tickNotifs prices (db_get_active_alerts db)) := by
      show (alert_checker prices db).1 = _
      rw [alert_checker_spec]
    rw [hspec]
    exact ⟨by rw [deactivateAll_next_id]; exact hd.1,
      deactivateAll_keeps_inactive _ db aid hd.2⟩

theorem dead_no_notifs (db : DB) (op : Op) (aid : Nat) (hd : deadId db aid) :
    ∀ n ∈ (runOp db op).2, n.aid ≠ aid := by
  cases op with
  | add c s ci d t now => simp [runOp]
  | deact j => simp [runOp]
  | tick prices =>
    intro n hn heq
    have hn2 : n ∈ tickNotifs prices (db_get_active_alerts db) := by
      have : (runOp db (Op.tick prices)).2 = tickNotifs prices (db_get_active_alerts db) := by
        show (alert_checker prices db).2 = _
        rw [alert_checker_spec]
      rwa [this] at hn
    rcases (mem_tickNotifs prices (db_get_active_alerts db) n).mp hn2 with
      ⟨a, ha, _, _, _, _, rfl⟩
    rcases List.mem_filter.mp ha with ⟨ha', hact⟩
    have hfa : a.is_active = false := hd.2 a ha' heq
    rw [hfa] at hact
    exact Bool.noConfusion hact

theorem run_no_dead_notifs :
    ∀ (ops : List Op) (db : DB) (aid : Nat), deadId db aid →
      ∀ n ∈ (run db ops).2, n.aid ≠ aid
  | [], _, _, _ => by simp [run]
  | op :: rest, db, aid, hd => by
    intro n hn
    simp only [run] at hn
    rcases List.mem_append.mp hn with h | h
    · exact dead_no_notifs db op aid hd n h
    · exact run_no_dead_notifs rest (runOp db op).1 aid (dead_runOp db op aid hd) n h

theorem count_le_one_of_nodup_map {α β : Type} [DecidableEq β] (f : α → β) (k : β) :
    ∀ l : List α, (l.map f).Nodup → (l.filter (fun x => f x = k)).length ≤ 1
  | [], _ => by simp
  | x :: l, h => by
    rw [List.map_cons] at h
    rcases List.nodup_cons.mp h with ⟨hx, hl⟩
    by_cases hxk : f x = k
    · rw [List.filter_cons_of_pos (by simpa using hxk)]
      have hnil : l.filter (fun y => f y = k) = [] := by
        refine List.filter_eq_nil_iff.mpr ?_
        intro y hy
        simp only [decide_eq_true_eq]
        intro hyk
        exact hx (by rw [hxk, ← hyk]; exact List.mem_map_of_mem f hy)
      rw [hnil]
      exact Nat.le_refl _
    · rw [List.filter_cons_of_neg (by simpa using hxk)]
      exact count_le_one_of_nodup_map f k l hl

theorem active_ids_nodup (db : DB) (hwf : WF db) :
    ((db_get_active_alerts db).map (fun a => a.id)).Nodup := by
  refine hwf.1.sublist ?_
  exact (List.filter_sublist _).map _

theorem tick_count_le_one (prices : String → Option (ℚ × ℚ)) (db : DB) (aid : Nat)
    (hwf : WF db) :
    ((alert_checker prices db).2.filter (fun n => n.aid = aid)).length ≤ 1 := by
  rw [alert_checker_spec]
  exact count_le_one_of_nodup_map (fun n : Notification => n.aid) aid _
    (tickNotifs_aid_nodup prices (db_get_active_alerts db) (active_ids_nodup db hwf))

theorem tick_dead_after (prices : String → Option (ℚ × ℚ)) (db : DB) (n : Notification)
    (hwf : WF db) (hn : n ∈ (alert_checker prices db).2) :
    deadId (alert_checker prices db).1 n.aid := by
  rw [alert_checker_spec] at hn ⊢
  refine ⟨?_, deactivateAll_sets_inactive _ db n hn⟩
  rcases (mem_tickNotifs prices (db_get_active_alerts db) n).mp hn with
    ⟨a, ha, _, _, _, _, rfl⟩
  have ha' : a ∈ db.alerts := (List.mem_filter.mp ha).1
  show (mkNotif a _ _).aid < (deactivateAll db _).next_id
  rw [deactivateAll_next_id]
  exact hwf.2 a.id (List.mem_map_of_mem _ ha')

theorem run_WF : ∀ (ops : List Op) (db : DB), WF db → WF (run db ops).1
  | [], _, hwf => hwf
  | op :: rest, db, hwf => run_WF rest (runOp db op).1 (WF_runOp db op hwf)

theorem run_count_le_one :
    ∀ (ops : List Op) (db : DB) (aid : Nat), WF db →
      ((run db ops).2.filter (fun n => n.aid = aid)).length ≤ 1
  | [], _, _, _ => by simp [run]
  | op :: rest, db, aid, hwf => by
    simp only [run]
    rw [List.filter_append, List.length_append]
    rcases hc : ((runOp db op).2.filter (fun n => n.aid = aid)) with _ | ⟨n, tl⟩
    · rw [hc, List.length_nil, Nat.zero_add]
      exact run_count_le_one rest (runOp db op).1 aid (WF_runOp db op hwf)
    · have hn : n ∈ (runOp db op).2 ∧ n.aid = aid := by
        have : n ∈ (runOp db op).2.filter (fun n => n.aid = aid) := by
          rw [hc]
          exact List.mem_cons_self _ _
        rcases List.mem_filter.mp this with ⟨h1, h2⟩
        exact ⟨h1, by simpa using h2⟩
      cases op with
      | add c s ci d t now => simp [runOp] at hn
      | deact j => simp [runOp] at hn
      | tick prices =>
        have hle : ((runOp db (Op.tick prices)).2.filter
            (fun n => n.aid = aid)).length ≤ 1 := tick_count_le_one prices db aid hwf
        have hdead : deadId (runOp db (Op.tick prices)).1 aid :=
          hn.2 ▸ tick_dead_after prices db n hwf hn.1
        have hrest : (run (runOp db (Op.tick prices)).1 rest).2.filter
            (fun n => n.aid = aid) = [] := by
          refine List.filter_eq_nil_iff.mpr ?_
          intro m hm
          simp only [decide_eq_true_eq]
          exact run_no_dead_notifs rest (runOp db (Op.tick prices)).1 aid hdead m hm
        rw [hrest, List.length_nil, Nat.add_zero]
        exact hle

/-- C1: starting from the empty store, along any sequence of creations,
explicit deactivations and checker ticks, at most one notification ever
carries a given watch id; and an inactive row can never be reactivated by
any further operation (INACTIVE is terminal). -/
theorem claim_C1 (ops : List Op) (aid : Nat) :
    ((run dbInit ops).2.filter (fun n => n.aid = aid)).length ≤ 1 ∧
    ∀ (op : Op) (a : Alert), a ∈ (run dbInit ops).1.alerts → a.is_active = false →
      ∀ b ∈ (runOp (run dbInit ops).1 op).1.alerts, b.id = a.id → b.is_active = false := by
  have hwf0 : WF dbInit := ⟨List.Pairwise.nil, by simp [dbIds, dbInit]⟩
  refine ⟨run_count_le_one ops dbInit aid hwf0, ?_⟩
  intro op a ha hinact b hb hid
  have hwf : WF (run dbInit ops).1 := run_WF ops dbInit hwf0
  have hdead : deadId (run dbInit ops).1 a.id := by
    refine ⟨hwf.2 a.id (List.mem_map_of_mem _ ha), ?_⟩
    intro x hx hxid
    have hxa : x = a := List.inj_on_of_nodup_map hwf.1 hx ha hxid
    rw [hxa]
    exact hinact
  exact (dead_runOp (run dbInit ops).1 op a.id hdead).2 b hb hid

/-- C1 (witness): create watch 1, deactivate it, then apply one more
tick: the count of notifications for id 1 is at most one and the row
stays inactive. -/
theorem claim_C1_witness :
    ((run dbInit [Op.add 1 "BTC" "bitcoin" "above" 1 0, Op.deact 1]).2.filter
        (fun n => n.aid = 1)).length ≤ 1 ∧
    (⟨1, 1, "BTC", "bitcoin", "above", 1, false, 0⟩ : Alert).is_active = false :=
  ⟨(claim_C1 [Op.add 1 "BTC" "bitcoin" "above" 1 0, Op.deact 1] 1).1,
   (claim_C1 [Op.add 1 "BTC" "bitcoin" "above" 1 0, Op.deact 1] 1).2
     (Op.tick (fun _ => none))
     ⟨1, 1, "BTC", "bitcoin", "above", 1, false, 0⟩ (by decide) rfl
     ⟨1, 1, "BTC", "bitcoin", "above", 1, false, 0⟩ (by decide) rfl⟩

end CryptoBot
